/-
Verification development for the ARPACK-Eigen implicitly restarted Arnoldi
solver (`GenEigsSolver.h`, `DoubleShiftQR.h`).

The C++ code is shallowly embedded over exact rationals:

* `double` scalars become `ℚ`; `std::complex<double>` becomes the pair
  structure `CQ` below.
* `std::sqrt` becomes `sqrtQ`, a computable rational square root built from
  `Nat.sqrt` on numerator and denominator.  It agrees with the real square
  root exactly on perfect squares, which is the regime in which all concrete
  evaluations below are carried out.  Theorems quantified over states hold
  for every value this function takes, so none of them depends on the
  rounding of inexact square roots.
* `int` becomes `ℤ`, with C++ `/` (truncation towards zero) modelled by
  `Int.tdiv`.
* Eigen containers become lists or index functions; a C++ array read is
  modelled by a total function or `List.getD`, and the set of indices a loop
  actually reads is modelled explicitly where a claim is about bounds.
* External collaborators (the user-supplied operator `op->perform_op`, the
  Eigen dense `HouseholderQR`, `std::sort`) are modelled by their documented
  contracts: the operator is an arbitrary function parameter, a QR
  factorization is an arbitrary pair `(Q, R)` with `Qᵀ * Q = 1`, `R` upper
  triangular and `A = Q * R`, and sorting is `List.mergeSort`, which
  realises exactly the `std::sort` contract (a sorted permutation).
-/

import Mathlib

set_option linter.unusedVariables false
set_option linter.unnecessarySeqFocus false

open Matrix

/-! ## Rational scalars and complex numbers over ℚ -/

/-- Model of `std::sqrt` on nonnegative rationals: integer square roots of
numerator and denominator.  Exact whenever both are perfect squares;
nonpositive inputs are sent to `0`. -/
def sqrtQ (q : ℚ) : ℚ :=
  if q ≤ 0 then 0 else (Nat.sqrt q.num.natAbs : ℚ) / (Nat.sqrt q.den : ℚ)

/-- Model of `std::complex<Scalar>` with `Scalar = double` embedded as `ℚ`. -/
structure CQ where
  re : ℚ
  im : ℚ

/-- The zero complex number, used as the default for out-of-range reads. -/
def cZero : CQ := ⟨0, 0⟩

/-- `std::conj`. -/
def cconj (z : CQ) : CQ := ⟨z.re, -z.im⟩

/-- Complex subtraction. -/
def csub (z w : CQ) : CQ := ⟨z.re - w.re, z.im - w.im⟩

/-- `std::norm`: the squared modulus `re² + im²`. -/
def cnorm (z : CQ) : ℚ := z.re * z.re + z.im * z.im

/-- `std::abs` on complex numbers: square root of the squared modulus. -/
def cabs (z : CQ) : ℚ := sqrtQ (cnorm z)

/-- Complex reciprocal `1 / z = conj z / |z|²`, as computed for the
shift-and-invert transformation `θ ↦ 1/θ + σ`. -/
def cinv (z : CQ) : CQ := ⟨z.re / cnorm z, -z.im / cnorm z⟩

/-- Adding a real number to a complex number (`1/θ + σ` with `σ` real). -/
def caddRe (z : CQ) (s : ℚ) : CQ := ⟨z.re + s, z.im⟩

/-! ## Tolerance predicates of `GenEigsSolver` -/

/-- `GenEigsSolver::is_complex`: `std::abs(v.imag()) > eps`
(GenEigsSolver.h line 113). -/
def is_complex (v : CQ) (eps : ℚ) : Bool := decide (eps < |v.im|)

/-- `GenEigsSolver::is_conj`: `std::abs(v1 - std::conj(v2)) < eps`
(GenEigsSolver.h line 118). -/
def is_conj (v1 v2 : CQ) (eps : ℚ) : Bool := decide (cabs (csub v1 (cconj v2)) < eps)

/-! ## `GenEigsSolver::nev_adjusted` (GenEigsSolver.h lines 198-227)

The Ritz-value array `ritz_val` is modelled as a total function `ℤ → CQ`;
the C++ code indexes it with `int` expressions, and the function model
gives every read a value so that the arithmetic of the routine itself can
be studied for all states. -/

/-- The conjugate-pair boundary bump appearing twice in `nev_adjusted`:
increment `a` when `ritz_val[a - 1]` is complex and conjugate to
`ritz_val[a]`. -/
def conj_bump (rv : ℤ → CQ) (prec : ℚ) (a : ℤ) : ℤ :=
  if is_complex (rv (a - 1)) prec && is_conj (rv (a - 1)) (rv a) prec then a + 1
  else a

/-- Embedding of `GenEigsSolver::nev_adjusted`.  C++ integer division
truncates towards zero, hence `Int.tdiv`. -/
def nev_adjusted (nev ncv : ℤ) (rv : ℤ → CQ) (prec : ℚ) (nconv : ℤ) : ℤ :=
  let nev1 : ℤ := conj_bump rv prec nev
  let nev2 : ℤ := nev1 + min nconv (Int.tdiv (ncv - nev1) 2)
  let nev3 : ℤ :=
    if nev2 = 1 ∧ 6 ≤ ncv then Int.tdiv ncv 2
    else if nev2 = 1 ∧ 3 < ncv then 2
    else nev2
  let nev4 : ℤ := if ncv - 2 < nev3 then ncv - 2 else nev3
  conj_bump rv prec nev4

/-- The six-step heuristic exactly as the claim words it: start from `nev`,
bump on a conjugate pair at the `nev` boundary, add
`min(nconv, ⌊(ncv − k)/2⌋)` (a floor, hence `Int.fdiv`), replace a result
of `1`, clamp to at most `ncv − 2`, and re-check the conjugate pair at the
new boundary. -/
def nevAdjustedSpec (nev ncv : ℤ) (rv : ℤ → CQ) (prec : ℚ) (nconv : ℤ) : ℤ :=
  let k1 : ℤ := conj_bump rv prec nev
  let k2 : ℤ := k1 + min nconv (Int.fdiv (ncv - k1) 2)
  let k3 : ℤ :=
    if k2 = 1 ∧ 6 ≤ ncv then Int.fdiv ncv 2
    else if k2 = 1 ∧ 3 < ncv then 2
    else k2
  let k4 : ℤ := min k3 (ncv - 2)
  conj_bump rv prec k4

/-! ## The conjugate-pair scan of `GenEigsSolver::restart`
(GenEigsSolver.h lines 135-178)

`restart(k)` runs `for (int i = k; i < ncv; i++)` and evaluates
`is_complex(ritz_val[i], prec) && is_conj(ritz_val[i], ritz_val[i+1], prec)`;
when both tests succeed the loop consumes two positions (the trailing `i++`
inside the branch), otherwise one.  `restart_conj_reads` returns the exact
list of `ritz_val` indices this scan reads: index `i` for the `is_complex`
test and additionally index `i + 1` whenever `is_complex` succeeded and the
short-circuited `is_conj` is therefore evaluated. -/

/-- Index trace of the conjugate-pair scan, with explicit fuel (the loop
advances by at least one position per iteration, so `(ncv - k).toNat + 1`
fuel is always enough). -/
def restart_conj_reads (rv : ℤ → CQ) (prec : ℚ) (ncv : ℤ) : ℕ → ℤ → List ℤ
  | 0, _ => []
  | fuel + 1, i =>
    if i < ncv then
      if is_complex (rv i) prec then
        if is_conj (rv i) (rv (i + 1)) prec then
          i :: (i + 1) :: restart_conj_reads rv prec ncv fuel (i + 2)
        else
          i :: (i + 1) :: restart_conj_reads rv prec ncv fuel (i + 1)
      else
        i :: restart_conj_reads rv prec ncv fuel (i + 1)
    else []

/-- The indices of `ritz_val` read by the shift-selection scan of
`restart(k)`. -/
def restart_reads (rv : ℤ → CQ) (prec : ℚ) (k ncv : ℤ) : List ℤ :=
  restart_conj_reads rv prec ncv ((ncv - k).toNat + 1) k

/-- Ritz values of a reachable solver state used in the analysis of the
scan: a doubled conjugate pair `3 ± i`, as produced by a real matrix with a
double complex eigenvalue pair, in one of the orders the unstable sort is
allowed to output (magnitudes all equal, tie-break on the real part also
equal). -/
def rvPair : ℤ → CQ := fun i =>
  if i = 0 then ⟨3, 1⟩
  else if i = 1 then ⟨3, -1⟩
  else if i = 2 then ⟨3, 1⟩
  else if i = 3 then ⟨3, -1⟩
  else cZero

/-! ## Solver state

The fields of `GenEigsSolver` that the Ritz-pair routines read and write.
`ritz_val` is the length-`ncv` Ritz value array, `ritz_vec` the list of its
`nev` retained Ritz eigenvector columns (each of length `ncv`), `ritz_conv`
the length-`nev` convergence mask, and `fac_f` the Arnoldi residual. -/
structure RitzState where
  nev : ℕ
  ncv : ℕ
  prec : ℚ
  ritz_val : List CQ
  ritz_vec : List (List CQ)
  ritz_conv : List Bool
  fac_f : List ℚ

/-- Euclidean norm of a vector stored as a list: `fac_f.norm()`. -/
def vecNorm (f : List ℚ) : ℚ := sqrtQ ((f.map (fun x => x * x)).sum)

/-! ## `GenEigsSolver::num_converged` (GenEigsSolver.h lines 186-195) -/

/-- `thresh = tol * ritz_val.head(nev).array().abs().max(prec)`. -/
def threshList (st : RitzState) (tol : ℚ) : List ℚ :=
  (st.ritz_val.take st.nev).map (fun θ => tol * max (cabs θ) st.prec)

/-- `resid = ritz_vec.bottomRows<1>().transpose().array().abs() * fac_f.norm()`:
the bottom row of a Ritz eigenvector column is its entry at index
`ncv - 1`. -/
def residList (st : RitzState) : List ℚ :=
  st.ritz_vec.map (fun y => cabs (y.getD (st.ncv - 1) cZero) * vecNorm st.fac_f)

/-- `ritz_conv = (resid < thresh)`, elementwise. -/
def ritz_conv_flags (st : RitzState) (tol : ℚ) : List Bool :=
  List.zipWith (fun r t => decide (r < t)) (residList st) (threshList st tol)

/-- `return ritz_conv.cast<int>().sum()`. -/
def num_converged (st : RitzState) (tol : ℚ) : ℤ :=
  ((ritz_conv_flags st tol).map (fun b => if b then (1 : ℤ) else 0)).sum

/-- The state mutation performed by `num_converged`: the convergence mask is
stored into `ritz_conv`. -/
def num_converged_state (st : RitzState) (tol : ℚ) : RitzState :=
  { st with ritz_conv := ritz_conv_flags st tol }

/-! ## `GenEigsSolver::sort_ritzpair` (GenEigsSolver.h lines 259-282)

`SelectionRule.h` is not part of the sources, so the comparator is modelled
from the specification: `LARGEST_MAGN` orders by `|θ|` descending with ties
broken by `Re θ` descending.  Comparisons of moduli are expressed through
the squared modulus `cnorm`, which is equivalent over the reals and exact
over `ℚ`.  `std::sort` guarantees exactly a sorted permutation and is
realised here by `List.mergeSort`. -/

/-- The `EigenvalueComparator<Complex, LARGEST_MAGN>` strict ordering,
modelled from the spec: `a` comes before `b` iff `|a| > |b|`, ties broken
by `Re a > Re b`. -/
def magnGT (a b : CQ) : Bool :=
  decide (cnorm b < cnorm a ∨ (cnorm b = cnorm a ∧ b.re < a.re))

/-- The non-strict ordering used for sorting index/value pairs:
`p` may precede `q` iff `q` is not strictly before `p`. -/
def sortPairsLe (p q : ℕ × CQ) : Bool := !(magnGT q.2 p.2)

/-- Embedding of `GenEigsSolver::sort_ritzpair`: pair the first `nev` Ritz
values with their indices, sort the pairs, write the sorted values back into
the head of `ritz_val`, and permute the Ritz vector columns and convergence
flags by the sorted index sequence. -/
def sort_ritzpair (st : RitzState) : RitzState :=
  let pairs := (st.ritz_val.take st.nev).enum
  let sorted := pairs.mergeSort sortPairsLe
  { st with
    ritz_val := sorted.map Prod.snd ++ st.ritz_val.drop st.nev
    ritz_vec := sorted.map (fun p => st.ritz_vec.getD p.1 [])
    ritz_conv := sorted.map (fun p => st.ritz_conv.getD p.1 false) }

/-! ## `GenEigsRealShiftSolver::sort_ritzpair` (GenEigsSolver.h lines 437-442) -/

/-- Embedding of the shift-and-invert override: replace each of the first
`nev` Ritz values `θ` by `1/θ + σ`, then run the base class sort. -/
def shift_sort_ritzpair (sigma : ℚ) (st : RitzState) : RitzState :=
  sort_ritzpair
    { st with
      ritz_val :=
        (st.ritz_val.take st.nev).map (fun θ => caddRe (cinv θ) sigma)
          ++ st.ritz_val.drop st.nev }

/-! ## `GenEigsSolver::compute` (GenEigsSolver.h lines 343-365)

The initial `factorize_from(1, ncv, fac_f)` / `retrieve_ritzpair()` calls
and the `restart` body delegate to the external operator and to the dense
eigensolver of Eigen, so for the driver they are abstracted: the state the
loop starts from is the parameter `st0`, and `restartO` is an arbitrary
state transformer standing for `restart(nev_adj)`.  The local variable
`nconv` of `compute` is declared without an initializer; its indeterminate
initial value is the explicit parameter `nconv0`. -/

/-- `nev_adjusted` read off a `RitzState` (array reads become `getD`;
negative indices, which the C++ program would read out of bounds, are
totalised through `Int.toNat`). -/
def nev_adjusted_state (st : RitzState) (nconv : ℤ) : ℤ :=
  nev_adjusted (st.nev : ℤ) (st.ncv : ℤ)
    (fun i => st.ritz_val.getD i.toNat cZero) st.prec nconv

/-- The restarting loop of `compute`: at most `fuel = maxit` iterations;
each iteration stores the convergence mask and either breaks when
`nconv ≥ nev` or restarts with the adjusted `nev`.  Returns the state after
the loop together with the final value of the local `nconv`. -/
def computeAux (tol : ℚ) (restartO : ℤ → RitzState → RitzState) :
    ℕ → RitzState → ℤ → RitzState × ℤ
  | 0, st, nconv => (st, nconv)
  | fuel + 1, st, _ =>
    let nc := num_converged st tol
    let st1 := num_converged_state st tol
    if (st.nev : ℤ) ≤ nc then (st1, nc)
    else computeAux tol restartO fuel (restartO (nev_adjusted_state st1 nc) st1) nc

/-- The solver state right after the restarting loop, before the final
sort. -/
def computePreSort (tol : ℚ) (restartO : ℤ → RitzState → RitzState)
    (maxit : ℕ) (st0 : RitzState) (nconv0 : ℤ) : RitzState :=
  (computeAux tol restartO maxit st0 nconv0).1

/-- Embedding of `compute(maxit, tol)`: run the loop, apply the final
`sort_ritzpair`, and return `std::min(nev, nconv)` together with the final
state. -/
def compute (restartO : ℤ → RitzState → RitzState) (st0 : RitzState)
    (maxit : ℕ) (tol : ℚ) (nconv0 : ℤ) : ℤ × RitzState :=
  let r := computeAux tol restartO maxit st0 nconv0
  (min (st0.nev : ℤ) r.2, sort_ritzpair r.1)

/-! ## `GenEigsSolver::init()` (GenEigsSolver.h lines 335-340)

`Vector::Random(dim_n)` is Eigen's random vector, whose documented contract
for floating-point scalars is componentwise uniform on `[-1, 1]`; the raw
draw is the parameter `r`.  The code then subtracts `0.5` from every
component. -/

/-- The pseudo-random initial residual built by `init()`. -/
def initRandomResid (r : ℕ → ℚ) : ℕ → ℚ := fun i => r i - 1 / 2

/-! ## `GenEigsSolver::factorize_from` (GenEigsSolver.h lines 72-111)

Vectors and matrices are index functions; `op` is the external operator
(`op->perform_op`), an arbitrary function parameter.  All inner products
are sums over `Finset.range dim`. -/

/-- The mutable fields of the Arnoldi factorization. -/
structure FacState where
  fac_V : ℕ → ℕ → ℚ
  fac_H : ℕ → ℕ → ℚ
  fac_f : ℕ → ℚ

/-- Euclidean norm of an index-function vector of dimension `dim`. -/
def funNorm (dim : ℕ) (f : ℕ → ℚ) : ℚ :=
  sqrtQ (∑ j ∈ Finset.range dim, f j * f j)

/-- One iteration of the `for (i = from_k; i <= to_m - 1; i++)` loop of
`factorize_from`: normalize the residual (no breakdown test appears in the
source: the division `fac_f / beta` is unconditional), store the new basis
column and `H(i, i-1) = beta`, apply the operator, form
`h = V(:,0:i)ᵀ w`, update column `i` of `H` and the residual, and perform
the one-step re-orthogonalization correction when `|⟨v₁, f⟩| > prec`. -/
def facStep (dim : ℕ) (op : (ℕ → ℚ) → ℕ → ℚ) (prec : ℚ)
    (st : FacState) (i : ℕ) : FacState :=
  let beta := funNorm dim st.fac_f
  let v : ℕ → ℚ := fun j => st.fac_f j / beta
  let V1 : ℕ → ℕ → ℚ := fun r c => if c = i then v r else st.fac_V r c
  let H1 : ℕ → ℕ → ℚ := fun r c => if r = i ∧ c < i then 0 else st.fac_H r c
  let H2 : ℕ → ℕ → ℚ := fun r c => if r = i ∧ c = i - 1 then beta else H1 r c
  let w := op v
  let h : ℕ → ℚ := fun r => ∑ j ∈ Finset.range dim, V1 j r * w j
  let H3 : ℕ → ℕ → ℚ := fun r c => if c = i ∧ r < i + 1 then h r else H2 r c
  let f1 : ℕ → ℚ := fun j => w j - ∑ r ∈ Finset.range (i + 1), V1 j r * h r
  let v1f := ∑ j ∈ Finset.range dim, f1 j * V1 j 0
  let Vf : ℕ → ℚ := fun r =>
    if r = 0 then v1f else ∑ j ∈ Finset.range dim, V1 j r * f1 j
  let f2 : ℕ → ℚ := fun j => f1 j - ∑ r ∈ Finset.range (i + 1), V1 j r * Vf r
  ⟨V1, H3, if v1f > prec ∨ v1f < -prec then f2 else f1⟩

/-- Embedding of `factorize_from(from_k, to_m, fk)`: early return when
`to_m <= from_k`; otherwise zero the columns of `H` from `from_k` on and
the rows from `from_k` on (the `rightCols` / `block` `setZero` calls),
install the residual `fk` and run the loop for `i = from_k, …, to_m - 1`. -/
def factorize_from (dim ncv : ℕ) (op : (ℕ → ℚ) → ℕ → ℚ) (prec : ℚ)
    (st : FacState) (from_k to_m : ℕ) (fk : ℕ → ℚ) : FacState :=
  if to_m ≤ from_k then st
  else
    let H0 : ℕ → ℕ → ℚ := fun r c =>
      if from_k ≤ c ∨ from_k ≤ r then 0 else st.fac_H r c
    (List.range' from_k (to_m - from_k)).foldl (facStep dim op prec)
      ⟨st.fac_V, H0, fk⟩

/-! ## The QR sweeps of `restart` (GenEigsSolver.h lines 135-178)

Matrices are `Matrix (Fin m) (Fin m) ℚ`.  The complex-conjugate-pair branch
forms `HH = fac_H * (fac_H - 2·Re(μ)·I) + |μ|²·I` and hands it to Eigen's
dense `HouseholderQR` (an external collaborator, modelled by its contract: a
factorization `HH = Q * R` with `Q` orthogonal and `R` upper triangular),
then replaces `H` by `Qᵀ * H * Q`.  The real-shift branch delegates to
`UpperHessenbergQR`, whose header is not among the sources; it is modelled
from the spec below. -/

/-- Upper-Hessenberg shape: everything below the first subdiagonal is
zero. -/
def Hessenberg {m : ℕ} (M : Matrix (Fin m) (Fin m) ℚ) : Prop :=
  ∀ i j : Fin m, (j : ℕ) + 1 < (i : ℕ) → M i j = 0

/-- Upper-triangular shape. -/
def UpperTri {m : ℕ} (M : Matrix (Fin m) (Fin m) ℚ) : Prop :=
  ∀ i j : Fin m, (j : ℕ) < (i : ℕ) → M i j = 0

/-- The matrix `HH` built by the complex-pair branch of `restart`:
`HH = fac_H; HH.diagonal() -= 2*re; HH = fac_H * HH; HH.diagonal() += s`
with `re = Re(μ)` and `s = std::norm(μ) = |μ|²`. -/
def shiftedHH {m : ℕ} (H : Matrix (Fin m) (Fin m) ℚ) (re snorm : ℚ) :
    Matrix (Fin m) (Fin m) ℚ :=
  H * (H - (2 * re) • (1 : Matrix (Fin m) (Fin m) ℚ)) + snorm • 1

/-- Modelled from the spec: a Givens plane rotation acting on coordinates
`k` and `k + 1` (`UpperHessenbergQR.h` is not among the sources; §4.2 of
the spec describes its `Q` as a product of `m − 1` such rotations, with
near-zero rotations replaced by the identity — covered here by arbitrary
`c`, `s`). -/
def givensMat (m : ℕ) (k : ℕ) (c s : ℚ) : Matrix (Fin m) (Fin m) ℚ :=
  fun i t =>
    if (i : ℕ) = k then
      if (t : ℕ) = k then c else if (t : ℕ) = k + 1 then s else 0
    else if (i : ℕ) = k + 1 then
      if (t : ℕ) = k then -s else if (t : ℕ) = k + 1 then c else 0
    else if i = t then 1 else 0

/-- Modelled from the spec: the orthogonal factor of the single-shift
Hessenberg QR step, `Q = G₀ · G₁ ⋯ G_{m−2}` with `G_k` a rotation in the
`(k, k+1)` plane. -/
def givensQ (m : ℕ) (c s : ℕ → ℚ) : Matrix (Fin m) (Fin m) ℚ :=
  ((List.range (m - 1)).map (fun k => givensMat m k (c k) (s k))).prod

/-- Modelled from the spec: the matrix `R·Q + μ·I` that the real-shift
branch of `restart` installs as the new `fac_H`
(`fac_H = decomp_hb.matrix_RQ(); fac_H.diagonal() += mu`). -/
def matrixRQshift (m : ℕ) (R : Matrix (Fin m) (Fin m) ℚ) (c s : ℕ → ℚ)
    (mu : ℚ) : Matrix (Fin m) (Fin m) ℚ :=
  R * givensQ m c s + mu • 1

/-! ## Concrete instances used in counterexamples and witnesses -/

/-- A Hessenberg matrix whose shifted square `shiftedHH Hwit (3/2) 4` is
invertible and upper triangular. -/
def Hwit : Matrix (Fin 3) (Fin 3) ℚ := !![1, 1, 1; 0, 1, 1; 0, 1, 2]

/-- An invertible upper-triangular matrix for the single-shift witness. -/
def Rwit : Matrix (Fin 3) (Fin 3) ℚ := !![1, 2, 3; 0, 4, 5; 0, 0, 6]

/-- A minimal well-formed solver state (`nev = ncv = 1`). -/
def stSmall : RitzState := ⟨1, 1, 1/2, [⟨2, 0⟩], [[⟨1, 0⟩]], [false], [0]⟩

/-- A solver state with `nev = 2`, `ncv = 3` for the driver analysis. -/
def stDriver : RitzState := ⟨2, 3, 1/100, [⟨1, 0⟩, ⟨2, 0⟩, ⟨3, 0⟩], [], [], []⟩

/-- A residual of norm `2⁻³⁶`, far below the breakdown threshold. -/
def fTiny : ℕ → ℚ := fun _ => 1 / 2 ^ 36

/-- The operator `v ↦ 2 v` (the 1×1 matrix `[[2]]`). -/
def opDouble : (ℕ → ℚ) → ℕ → ℚ := fun v j => 2 * v j

/-- A one-dimensional factorization state whose single basis column is the
unit vector `[1]`. -/
def stFac : FacState :=
  ⟨fun r c => if r = 0 ∧ c = 0 then 1 else 0, fun _ _ => 0, fun _ => 0⟩

/-! # Theorems

First the generic helper lemmas, then one theorem (plus witness or
counterexample) per claim. -/

/-! ## Helper lemmas on `sqrtQ` -/

theorem sqrtQ_nonpos {q : ℚ} (h : q ≤ 0) : sqrtQ q = 0 := by
  simp [sqrtQ, h]

theorem sqrtQ_sq_div_sq (a b : ℕ) (hb : 0 < b) (hab : Nat.Coprime a b) :
    sqrtQ ((a : ℚ) ^ 2 / (b : ℚ) ^ 2) = (a : ℚ) / (b : ℚ) := by
  rcases Nat.eq_zero_or_pos a with ha | ha
  · subst ha
    simp [sqrtQ]
  · have hb2 : (0 : ℤ) < (b : ℤ) ^ 2 := by positivity
    have hcop : Nat.Coprime (((a : ℤ) ^ 2).natAbs) (((b : ℤ) ^ 2).natAbs) := by
      simpa [Int.natAbs_pow] using Nat.Coprime.pow 2 2 hab
    have hq : ((a : ℚ) ^ 2 / (b : ℚ) ^ 2)
        = (((a : ℤ) ^ 2 : ℤ) : ℚ) / (((b : ℤ) ^ 2 : ℤ) : ℚ) := by
      push_cast
      ring
    have hqpos : 0 < ((a : ℚ) ^ 2 / (b : ℚ) ^ 2) := by positivity
    have hnum : ((a : ℚ) ^ 2 / (b : ℚ) ^ 2).num = (a : ℤ) ^ 2 := by
      rw [hq]
      exact Rat.num_div_eq_of_coprime hb2 hcop
    have hden : (((a : ℚ) ^ 2 / (b : ℚ) ^ 2).den : ℤ) = (b : ℤ) ^ 2 := by
      rw [hq]
      exact Rat.den_div_eq_of_coprime hb2 hcop
    have hden' : ((a : ℚ) ^ 2 / (b : ℚ) ^ 2).den = b ^ 2 := by
      exact_mod_cast hden
    rw [sqrtQ, if_neg (not_le.mpr hqpos), hnum, hden']
    have h1 : ((a : ℤ) ^ 2).natAbs = a ^ 2 := by
      simp [Int.natAbs_pow]
    rw [h1, Nat.sqrt_eq', Nat.sqrt_eq']

theorem sqrtQ_natCast (n : ℕ) : sqrtQ (n : ℚ) = (Nat.sqrt n : ℚ) := by
  rcases Nat.eq_zero_or_pos n with h | h
  · subst h
    simp [sqrtQ]
  · have hpos : (0 : ℚ) < (n : ℚ) := by exact_mod_cast h
    rw [sqrtQ, if_neg (not_le.mpr hpos)]
    simp

/-! ## Claim C8: the random initial residual -/

/-- C8: the claim states that every component of the residual built by
`init()` lies in `[-1/2, 1/2]`.  `Vector::Random` draws components from
`[-1, 1]` (Eigen's documented range), so the draw `-1` is admissible, yet
the corresponding component of the constructed residual is `-3/2`, outside
the claimed interval.  This closed theorem evaluates the code at that
failing input. -/
theorem init_random_component_below_range :
    ((-1 : ℚ) ≤ -1 ∧ (-1 : ℚ) ≤ 1)
    ∧ initRandomResid (fun _ => -1) 0 = -3/2
    ∧ ¬ (-(1/2 : ℚ) ≤ initRandomResid (fun _ => -1) 0) := by
  refine ⟨⟨le_refl _, by norm_num⟩, by norm_num [initRandomResid], ?_⟩
  norm_num [initRandomResid]

/-! ## Claim C10: `compute` with `maxit = 0` -/

/-- C10: the claim states the value returned by `compute(maxit, tol)` is
fully determined by the solver state and the arguments.  With `maxit = 0`
the restarting loop body never runs, the local `nconv` keeps its
indeterminate initial value (parameter `nconv0` of the model), and the
returned `std::min(nev, nconv)` depends on it: two admissible initial
garbage values `7` and `-3` produce the two different return values `2`
and `-3` from the same state and arguments. -/
theorem compute_maxit_zero_reads_junk :
    (compute (fun _ s => s) stDriver 0 (1/10) 7).1 = 2
    ∧ (compute (fun _ s => s) stDriver 0 (1/10) (-3)).1 = -3
    ∧ (compute (fun _ s => s) stDriver 0 (1/10) 7).1
        ≠ (compute (fun _ s => s) stDriver 0 (1/10) (-3)).1 := by
  refine ⟨?_, ?_, ?_⟩ <;> simp [compute, computeAux, stDriver]

/-! ## Claim C9: the conjugate-pair scan of `restart` can read past the end -/

/-- C9: the claim states that whenever the test
`is_conj(ritz_val[i], ritz_val[i+1], prec)` is evaluated in `restart(k)`,
`i + 1 < ncv` holds, including for `k = nev_adjusted(...)`.  At the state
`ritz_val = [3+i, 3-i, 3+i, 3-i]` (`ncv = 4`, `nev = 2`, a doubled
conjugate pair of a real matrix in an order admitted by the unstable sort),
`nev_adjusted` returns `3 = ncv - 1`, and the scan of `restart(3)` starts
at `i = 3`, finds `ritz_val[3]` complex and therefore evaluates the
conjugate test reading index `4 = ncv`, one past the end of the array:
`i + 1 < ncv` fails. -/
theorem restart_scan_reads_past_end :
    nev_adjusted 2 4 rvPair (1/100) 0 = 3
    ∧ (4 : ℤ) ∈ restart_reads rvPair (1/100) 3 4
    ∧ ¬ ((3 : ℤ) + 1 < 4) := by
  have hcx : is_complex ⟨3, 1⟩ (1/100) = true := by
    simp [is_complex]
    norm_num
  have hcx' : is_complex ⟨3, -1⟩ (1/100) = true := by
    simp [is_complex]
    norm_num
  have hcj : is_conj ⟨3, 1⟩ ⟨3, -1⟩ (1/100) = true := by
    simp [is_conj, csub, cconj, cabs, cnorm]
    norm_num [sqrtQ]
  have hcj' : is_conj ⟨3, -1⟩ ⟨3, 1⟩ (1/100) = true := by
    simp [is_conj, csub, cconj, cabs, cnorm]
    norm_num [sqrtQ]
  have ht12 : Int.tdiv 1 2 = 0 := by decide
  refine ⟨?_, ?_, by norm_num⟩
  · norm_num [nev_adjusted, conj_bump, rvPair, hcx, hcx', hcj, hcj', ht12]
  · norm_num [restart_reads, restart_conj_reads, rvPair, hcx']

/-! ## Claim C5: `nev_adjusted` computes the six-step heuristic -/

theorem conj_bump_cases (rv : ℤ → CQ) (prec : ℚ) (a : ℤ) :
    conj_bump rv prec a = a + 1 ∨ conj_bump rv prec a = a := by
  unfold conj_bump
  split
  · exact Or.inl rfl
  · exact Or.inr rfl

/-- C5: for every `nconv ≥ 0` and every Ritz value vector, `nev_adjusted`
computes exactly the six-step heuristic of the claim: start from `nev`,
add 1 when `ritz_val[nev-1]`, `ritz_val[nev]` form a conjugate pair, add
`min(nconv, ⌊(ncv − k)/2⌋)`, replace a result of `1` by `ncv/2` when
`ncv ≥ 6` or by `2` when `ncv > 3`, clamp to at most `ncv − 2`, and bump
once more when a conjugate pair straddles the new boundary.  The C++
truncating divisions agree with the floors because the dividends are
nonnegative under the constructor invariants `1 ≤ nev < ncv`. -/
theorem nev_adjusted_eq_heuristic (nev ncv : ℤ) (rv : ℤ → CQ) (prec : ℚ)
    (nconv : ℤ) (h1 : 1 ≤ nev) (h2 : nev < ncv) (h3 : 0 ≤ nconv) :
    nev_adjusted nev ncv rv prec nconv = nevAdjustedSpec nev ncv rv prec nconv := by
  unfold nev_adjusted nevAdjustedSpec
  have ha : conj_bump rv prec nev ≤ ncv ∧ 1 ≤ conj_bump rv prec nev := by
    rcases conj_bump_cases rv prec nev with h | h <;> omega
  set a := conj_bump rv prec nev with hadef
  have e1 : Int.fdiv (ncv - a) 2 = Int.tdiv (ncv - a) 2 :=
    Int.fdiv_eq_tdiv (by omega) (by norm_num)
  have e2 : Int.fdiv ncv 2 = Int.tdiv ncv 2 :=
    Int.fdiv_eq_tdiv (by omega) (by norm_num)
  simp only [e1, e2]
  congr 1
  rw [min_def]
  split_ifs <;> omega

/-- Witness for C5 at a concrete state satisfying the constructor
invariants. -/
theorem nev_adjusted_eq_heuristic_witness :
    nev_adjusted 2 4 rvPair (1/100) 0 = nevAdjustedSpec 2 4 rvPair (1/100) 0 :=
  nev_adjusted_eq_heuristic 2 4 rvPair (1/100) 0 (by norm_num) (by norm_num)
    (le_refl 0)

/-! ## Claim C2: `factorize_from` has no breakdown test -/

theorem facStep_fac_V_other (dim : ℕ) (op : (ℕ → ℚ) → ℕ → ℚ) (prec : ℚ)
    (st : FacState) (i j c : ℕ) (h : c ≠ i) :
    (facStep dim op prec st i).fac_V j c = st.fac_V j c := by
  simp [facStep, h]

theorem facStep_fac_V_self (dim : ℕ) (op : (ℕ → ℚ) → ℕ → ℚ) (prec : ℚ)
    (st : FacState) (i j : ℕ) :
    (facStep dim op prec st i).fac_V j i = st.fac_f j / funNorm dim st.fac_f := by
  simp [facStep]

theorem foldl_facStep_fac_V (dim : ℕ) (op : (ℕ → ℚ) → ℕ → ℚ) (prec : ℚ)
    (l : List ℕ) (st : FacState) (j c : ℕ) (h : ∀ i ∈ l, c ≠ i) :
    (l.foldl (facStep dim op prec) st).fac_V j c = st.fac_V j c := by
  induction l generalizing st with
  | nil => rfl
  | cons x xs ih =>
    rw [List.foldl_cons, ih _ (fun i hi => h i (List.mem_cons_of_mem _ hi)),
      facStep_fac_V_other dim op prec st x j c (h x (List.mem_cons_self _ _))]

theorem funNorm_fTiny : funNorm 1 fTiny = 1 / 2 ^ 36 := by
  have h : (∑ j ∈ Finset.range 1, fTiny j * fTiny j)
      = ((1 : ℕ) : ℚ) ^ 2 / ((2 ^ 36 : ℕ) : ℚ) ^ 2 := by
    rw [Finset.sum_range_one]
    push_cast
    norm_num [fTiny]
  rw [funNorm, h, sqrtQ_sq_div_sq 1 (2 ^ 36) (by positivity) (Nat.coprime_one_left _)]
  norm_num

/-- C2 (amended): `factorize_from` performs the normalization
`v = f / beta` unconditionally at every executed step: no breakdown test
appears and no early return happens.  In particular the basis column
written at step `from_k` is always `fk / ‖fk‖`, with no hypothesis on the
size of `‖fk‖`. -/
theorem factorize_from_always_normalizes (dim ncv : ℕ)
    (op : (ℕ → ℚ) → ℕ → ℚ) (prec : ℚ) (st : FacState) (from_k to_m : ℕ)
    (fk : ℕ → ℚ) (j : ℕ) (h : from_k < to_m) :
    (factorize_from dim ncv op prec st from_k to_m fk).fac_V j from_k
      = fk j / funNorm dim fk := by
  unfold factorize_from
  rw [if_neg (by omega)]
  have hrange : to_m - from_k = (to_m - from_k - 1) + 1 := by omega
  rw [hrange, List.range'_succ, List.foldl_cons]
  rw [foldl_facStep_fac_V dim op prec _ _ j from_k
    (fun i hi => by
      have := (List.mem_range'_1.mp hi).1
      omega)]
  exact facStep_fac_V_self dim op prec _ from_k j

/-- Witness for C2's amended theorem at a concrete extension step. -/
theorem factorize_from_always_normalizes_witness :
    (1 : ℕ) < 2
    ∧ (factorize_from 1 2 opDouble (1/2^35) stFac 1 2 (fun _ => 1)).fac_V 0 1
        = (fun _ => (1 : ℚ)) 0 / funNorm 1 (fun _ => 1) :=
  ⟨by norm_num,
    factorize_from_always_normalizes 1 2 opDouble (1/2^35) stFac 1 2
      (fun _ => 1) 0 (by norm_num)⟩

/-- C2 (counterexample): the claim states that when `beta = ‖f‖` is at most
the threshold, the extension declares a breakdown, returns early, and never
performs the normalization `v = f / beta`.  At the concrete state below the
residual norm is `2⁻³⁶`, below the threshold `prec = 2⁻³⁵`, yet
`factorize_from` still normalizes: the new basis column receives the value
`(2⁻³⁶) / (2⁻³⁶) = 1` (it was `0` before the call), so the normalization
was performed with `beta` below the threshold and no early return took
place. -/
theorem factorize_from_breakdown_cex :
    funNorm 1 fTiny ≤ 1/2^35
    ∧ (factorize_from 1 2 opDouble (1/2^35) stFac 1 2 fTiny).fac_V 0 1 = 1
    ∧ stFac.fac_V 0 1 = 0 := by
  refine ⟨by rw [funNorm_fTiny]; norm_num, ?_, by simp [stFac]⟩
  show ((List.range' 1 (2 - 1)).foldl (facStep 1 opDouble (1/2^35))
    ⟨stFac.fac_V, _, fTiny⟩).fac_V 0 1 = 1
  rw [show (2 - 1 : ℕ) = 1 from rfl, List.range'_succ, List.range'_zero,
    List.foldl_cons, List.foldl_nil, facStep_fac_V_self]
  rw [show (⟨stFac.fac_V, fun r c => if 1 ≤ c ∨ 1 ≤ r then 0 else stFac.fac_H r c,
      fTiny⟩ : FacState).fac_f = fTiny from rfl, funNorm_fTiny]
  norm_num [fTiny]

/-! ## Claim C3: `num_converged` -/

theorem sum_indicator_filter {α : Type} (p : α → Bool) (l : List α) :
    ((l.map p).map (fun b => if b then (1 : ℤ) else 0)).sum
      = ((l.filter p).length : ℤ) := by
  induction l with
  | nil => rfl
  | cons x xs ih =>
    by_cases h : p x
    · simp only [List.map_cons, List.sum_cons, ih, List.filter_cons, h, if_true]
      simp
      ring
    · simp only [List.map_cons, List.sum_cons, ih, List.filter_cons, h]
      simp [h]

theorem ritz_conv_flags_eq_map (st : RitzState) (tol : ℚ)
    (hvec : st.ritz_vec.length = st.nev) (hval : st.nev ≤ st.ritz_val.length) :
    ritz_conv_flags st tol
      = (List.range st.nev).map (fun k =>
          decide (cabs ((st.ritz_vec.getD k []).getD (st.ncv - 1) cZero)
              * vecNorm st.fac_f
            < tol * max (cabs (st.ritz_val.getD k cZero)) st.prec)) := by
  have lenR : (residList st).length = st.nev := by
    simp [residList, hvec]
  have lenT : (threshList st tol).length = st.nev := by
    simp [threshList, min_eq_left hval]
  apply List.ext_getElem
  · simp [ritz_conv_flags, lenR, lenT]
  · intro k h1 h2
    have hk : k < st.nev := by
      simpa [ritz_conv_flags, lenR, lenT] using h1
    have hkR : k < (residList st).length := by omega
    have hkT : k < (threshList st tol).length := by omega
    have hkvec : k < st.ritz_vec.length := by omega
    have hkval : k < st.ritz_val.length := by omega
    have hkval' : k < (st.ritz_val.take st.nev).length := by
      simpa [min_eq_left hval] using hk
    simp only [ritz_conv_flags, List.getElem_zipWith, List.getElem_map,
      List.getElem_range, residList, threshList]
    rw [List.getD_eq_getElem _ _ hkvec, List.getD_eq_getElem _ _ hkval,
      List.getElem_take]

/-- C3: `num_converged(tol)` marks the `i`-th wanted Ritz pair as converged
exactly when `|yᵢ[ncv−1]| · ‖f‖ < tol · max(|θᵢ|, prec)` (with
`prec = ε^{2/3}`), where `yᵢ[ncv−1]` is the last component of the `i`-th
retained Ritz eigenvector column and `θᵢ` the `i`-th sorted Ritz value,
and it returns the number of marked indices. -/
theorem num_converged_spec (st : RitzState) (tol : ℚ) (i : ℕ)
    (hi : i < st.nev) (hvec : st.ritz_vec.length = st.nev)
    (hval : st.nev ≤ st.ritz_val.length) :
    ((ritz_conv_flags st tol).getD i false = true ↔
      cabs ((st.ritz_vec.getD i []).getD (st.ncv - 1) cZero) * vecNorm st.fac_f
        < tol * max (cabs (st.ritz_val.getD i cZero)) st.prec)
    ∧ num_converged st tol
        = (((List.range st.nev).filter (fun k =>
            decide (cabs ((st.ritz_vec.getD k []).getD (st.ncv - 1) cZero)
                * vecNorm st.fac_f
              < tol * max (cabs (st.ritz_val.getD k cZero)) st.prec))).length
            : ℤ) := by
  have hfl := ritz_conv_flags_eq_map st tol hvec hval
  constructor
  · have hlen : i < (ritz_conv_flags st tol).length := by
      rw [hfl]
      simpa using hi
    rw [List.getD_eq_getElem _ _ hlen]
    simp only [hfl, List.getElem_map, List.getElem_range]
    exact decide_eq_true_iff
  · rw [num_converged, hfl, sum_indicator_filter]

/-- Witness for C3 at a concrete well-formed state. -/
theorem num_converged_spec_witness :
    (0 < stSmall.nev ∧ stSmall.ritz_vec.length = stSmall.nev
      ∧ stSmall.nev ≤ stSmall.ritz_val.length)
    ∧ (((ritz_conv_flags stSmall 1).getD 0 false = true ↔
        cabs ((stSmall.ritz_vec.getD 0 []).getD (stSmall.ncv - 1) cZero)
            * vecNorm stSmall.fac_f
          < 1 * max (cabs (stSmall.ritz_val.getD 0 cZero)) stSmall.prec)
      ∧ num_converged stSmall 1
          = (((List.range stSmall.nev).filter (fun k =>
              decide (cabs ((stSmall.ritz_vec.getD k []).getD
                    (stSmall.ncv - 1) cZero) * vecNorm stSmall.fac_f
                < 1 * max (cabs (stSmall.ritz_val.getD k cZero))
                    stSmall.prec))).length : ℤ)) :=
  ⟨⟨by norm_num [stSmall], rfl, by norm_num [stSmall]⟩,
    num_converged_spec stSmall 1 0 (by norm_num [stSmall]) rfl
      (by norm_num [stSmall])⟩

/-! ## Sorting lemmas for `sort_ritzpair` (claims C6 and C7) -/

theorem magnGT_false_le {a b : CQ} (h : magnGT b a = false) :
    cnorm b ≤ cnorm a := by
  have h' := of_decide_eq_false h
  push_neg at h'
  exact h'.1

theorem magnGT_neg_trans {a b c : CQ} (h1 : magnGT b a = false)
    (h2 : magnGT c b = false) : magnGT c a = false := by
  have h1' := of_decide_eq_false h1
  have h2' := of_decide_eq_false h2
  push_neg at h1' h2'
  obtain ⟨h1l, h1r⟩ := h1'
  obtain ⟨h2l, h2r⟩ := h2'
  apply decide_eq_false
  push_neg
  refine ⟨by linarith, fun he => ?_⟩
  have hab : cnorm a = cnorm b := by linarith
  have hbc : cnorm b = cnorm c := by linarith
  exact le_trans (h2r hbc) (h1r hab)

theorem sortPairsLe_trans (p q r : ℕ × CQ) (h1 : sortPairsLe p q = true)
    (h2 : sortPairsLe q r = true) : sortPairsLe p r = true := by
  simp only [sortPairsLe, Bool.not_eq_true'] at h1 h2 ⊢
  exact magnGT_neg_trans h1 h2

theorem sortPairsLe_total (p q : ℕ × CQ) :
    (sortPairsLe p q || sortPairsLe q p) = true := by
  simp only [sortPairsLe, Bool.or_eq_true, Bool.not_eq_true']
  by_contra hcon
  push_neg at hcon
  obtain ⟨h1, h2⟩ := hcon
  have h1' := of_decide_eq_true (eq_true_of_ne_false h1)
  have h2' := of_decide_eq_true (eq_true_of_ne_false h2)
  rcases h1' with h | ⟨he, hr⟩ <;> rcases h2' with h' | ⟨he', hr'⟩ <;> linarith

theorem sort_ritzpair_take (st : RitzState) :
    (sort_ritzpair st).ritz_val.take st.nev
      = ((st.ritz_val.take st.nev).enum.mergeSort sortPairsLe).map Prod.snd := by
  have hlen : (((st.ritz_val.take st.nev).enum.mergeSort sortPairsLe).map
      Prod.snd).length = min st.nev st.ritz_val.length := by
    rw [List.length_map, (List.mergeSort_perm _ _).length_eq, List.enum_length,
      List.length_take]
  show List.take st.nev (_ ++ List.drop st.nev st.ritz_val) = _
  rw [List.take_append_eq_append_take, hlen]
  rcases le_or_lt st.nev st.ritz_val.length with h | h
  · rw [min_eq_left h]
    rw [List.take_of_length_le (by rw [hlen, min_eq_left h]),
      Nat.sub_self, List.take_zero, List.append_nil]
  · rw [List.drop_eq_nil_of_le h.le, List.take_nil, List.append_nil,
      List.take_of_length_le (by rw [hlen]; omega)]

theorem sort_ritzpair_sorted (st : RitzState) :
    List.Pairwise (fun a b => cnorm b ≤ cnorm a)
      ((sort_ritzpair st).ritz_val.take st.nev) := by
  rw [sort_ritzpair_take]
  refine List.Pairwise.map Prod.snd ?_
    (List.sorted_mergeSort sortPairsLe_trans sortPairsLe_total
      (st.ritz_val.take st.nev).enum)
  intro a b hab
  simp only [sortPairsLe, Bool.not_eq_true'] at hab
  exact magnGT_false_le hab

theorem sort_ritzpair_consistent (st : RitzState)
    (h : st.nev ≤ st.ritz_val.length) :
    ∃ perm : List ℕ, perm.Perm (List.range st.nev)
      ∧ (sort_ritzpair st).ritz_val.take st.nev
          = perm.map (fun i => st.ritz_val.getD i cZero)
      ∧ (sort_ritzpair st).ritz_vec
          = perm.map (fun i => st.ritz_vec.getD i [])
      ∧ (sort_ritzpair st).ritz_conv
          = perm.map (fun i => st.ritz_conv.getD i false) := by
  refine ⟨((st.ritz_val.take st.nev).enum.mergeSort sortPairsLe).map Prod.fst,
    ?_, ?_, ?_, ?_⟩
  · have hp := (List.mergeSort_perm (st.ritz_val.take st.nev).enum
      sortPairsLe).map Prod.fst
    rw [List.enum_map_fst, List.length_take, min_eq_left h] at hp
    exact hp
  · rw [sort_ritzpair_take, List.map_map]
    apply List.map_congr_left
    rintro ⟨i, x⟩ hp
    have hmem : (i, x) ∈ (st.ritz_val.take st.nev).enum :=
      (List.mergeSort_perm _ _).mem_iff.mp hp
    obtain ⟨hlt, heq⟩ := List.mem_enum hmem
    have hi : i < st.ritz_val.length := by
      rw [List.length_take] at hlt
      omega
    simp only [Function.comp]
    rw [List.getD_eq_getElem _ _ hi]
    simpa [List.getElem_take] using heq
  · rw [List.map_map]
    rfl
  · rw [List.map_map]
    rfl

theorem computeAux_preserves (tol : ℚ) (restartO : ℤ → RitzState → RitzState)
    (hO : ∀ k s, (restartO k s).nev = s.nev
      ∧ (restartO k s).ritz_val.length = s.ritz_val.length) :
    ∀ (fuel : ℕ) (st : RitzState) (nconv : ℤ),
      (computeAux tol restartO fuel st nconv).1.nev = st.nev
      ∧ (computeAux tol restartO fuel st nconv).1.ritz_val.length
          = st.ritz_val.length := by
  intro fuel
  induction fuel with
  | zero => exact fun st nconv => ⟨rfl, rfl⟩
  | succ n ih =>
    intro st nconv
    unfold computeAux
    by_cases h : ((st.nev : ℤ) ≤ num_converged st tol)
    · simp only [h, if_pos]
      exact ⟨rfl, rfl⟩
    · simp only [h, if_neg, not_false_iff]
      have hrec := ih (restartO
        (nev_adjusted_state (num_converged_state st tol) (num_converged st tol))
        (num_converged_state st tol)) (num_converged st tol)
      have hres := hO
        (nev_adjusted_state (num_converged_state st tol) (num_converged st tol))
        (num_converged_state st tol)
      refine ⟨?_, ?_⟩
      · rw [hrec.1, hres.1]
        rfl
      · rw [hrec.2, hres.2]
        rfl

/-- C6: after `compute` returns, the first `nev` Ritz values are sorted in
decreasing magnitude order (expressed through the squared modulus `cnorm`,
equivalently `|θ₀| ≥ |θ₁| ≥ …`), for every restart oracle, initial state
and selection rule used during iteration (the state reached by the loop is
arbitrary); and the retained Ritz vector columns and convergence flags of
the result are permuted consistently with the values: one permutation of
`0, …, nev−1` simultaneously produces the sorted values, the vector
columns and the flags from the pre-sort state. -/
theorem compute_final_sorted (restartO : ℤ → RitzState → RitzState)
    (st0 : RitzState) (maxit : ℕ) (tol : ℚ) (nconv0 : ℤ)
    (hO : ∀ k s, (restartO k s).nev = s.nev
      ∧ (restartO k s).ritz_val.length = s.ritz_val.length)
    (hlen : st0.nev ≤ st0.ritz_val.length) :
    List.Pairwise (fun a b => cnorm b ≤ cnorm a)
      (((compute restartO st0 maxit tol nconv0).2).ritz_val.take st0.nev)
    ∧ ∃ perm : List ℕ, perm.Perm (List.range st0.nev)
        ∧ ((compute restartO st0 maxit tol nconv0).2).ritz_val.take st0.nev
            = perm.map (fun i =>
                (computePreSort tol restartO maxit st0 nconv0).ritz_val.getD i
                  cZero)
        ∧ ((compute restartO st0 maxit tol nconv0).2).ritz_vec
            = perm.map (fun i =>
                (computePreSort tol restartO maxit st0 nconv0).ritz_vec.getD i [])
        ∧ ((compute restartO st0 maxit tol nconv0).2).ritz_conv
            = perm.map (fun i =>
                (computePreSort tol restartO maxit st0 nconv0).ritz_conv.getD i
                  false) := by
  have hpre := computeAux_preserves tol restartO hO maxit st0 nconv0
  have h2 : (compute restartO st0 maxit tol nconv0).2
      = sort_ritzpair (computePreSort tol restartO maxit st0 nconv0) := rfl
  have hnev : (computePreSort tol restartO maxit st0 nconv0).nev = st0.nev :=
    hpre.1
  rw [h2, ← hnev]
  refine ⟨sort_ritzpair_sorted _, sort_ritzpair_consistent _ ?_⟩
  rw [hnev]
  unfold computePreSort
  rw [hpre.2]
  exact hlen

/-- Witness for C6 with the identity restart oracle and a concrete
well-formed state. -/
theorem compute_final_sorted_witness :
    List.Pairwise (fun a b => cnorm b ≤ cnorm a)
      (((compute (fun _ s => s) stSmall 0 1 0).2).ritz_val.take stSmall.nev)
    ∧ ∃ perm : List ℕ, perm.Perm (List.range stSmall.nev)
        ∧ ((compute (fun _ s => s) stSmall 0 1 0).2).ritz_val.take stSmall.nev
            = perm.map (fun i =>
                (computePreSort 1 (fun _ s => s) 0 stSmall 0).ritz_val.getD i
                  cZero)
        ∧ ((compute (fun _ s => s) stSmall 0 1 0).2).ritz_vec
            = perm.map (fun i =>
                (computePreSort 1 (fun _ s => s) 0 stSmall 0).ritz_vec.getD i [])
        ∧ ((compute (fun _ s => s) stSmall 0 1 0).2).ritz_conv
            = perm.map (fun i =>
                (computePreSort 1 (fun _ s => s) 0 stSmall 0).ritz_conv.getD i
                  false) :=
  compute_final_sorted (fun _ s => s) stSmall 0 1 0 (fun _ _ => ⟨rfl, rfl⟩)
    (by norm_num [stSmall])

/-! ## Claim C7: the shift-and-invert final sort -/

/-- C7: the shift-and-invert solver's final sorting step first replaces
each of the first `nev` Ritz values `θ` by `1/θ + σ` and then performs the
base solver's sort: the resulting head of `ritz_val` is a permutation of
the transformed original values — each value transformed exactly once —
and it is sorted by magnitude of the transformed values, which shows the
transformation happened before the sort. -/
theorem shift_sort_transforms_then_sorts (sigma : ℚ) (st : RitzState)
    (h : st.nev ≤ st.ritz_val.length) :
    ((shift_sort_ritzpair sigma st).ritz_val.take st.nev).Perm
        ((st.ritz_val.take st.nev).map (fun θ => caddRe (cinv θ) sigma))
    ∧ List.Pairwise (fun a b => cnorm b ≤ cnorm a)
        ((shift_sort_ritzpair sigma st).ritz_val.take st.nev) := by
  have hlm : ((st.ritz_val.take st.nev).map
      (fun θ => caddRe (cinv θ) sigma)).length = st.nev := by
    simp [min_eq_left h]
  have htake :
      ({ st with ritz_val :=
          (st.ritz_val.take st.nev).map (fun θ => caddRe (cinv θ) sigma)
            ++ st.ritz_val.drop st.nev } : RitzState).ritz_val.take st.nev
        = (st.ritz_val.take st.nev).map (fun θ => caddRe (cinv θ) sigma) := by
    show List.take st.nev (_ ++ _) = _
    rw [List.take_append_eq_append_take, hlm, Nat.sub_self, List.take_zero,
      List.append_nil, List.take_of_length_le (le_of_eq hlm)]
  constructor
  · have h1 := sort_ritzpair_take
      { st with ritz_val :=
          (st.ritz_val.take st.nev).map (fun θ => caddRe (cinv θ) sigma)
            ++ st.ritz_val.drop st.nev }
    rw [shift_sort_ritzpair,
      show (sort_ritzpair _).ritz_val.take st.nev = _ from h1, htake]
    have hperm := (List.mergeSort_perm
      ((st.ritz_val.take st.nev).map (fun θ => caddRe (cinv θ) sigma)).enum
      sortPairsLe).map Prod.snd
    rw [List.enum_map_snd] at hperm
    exact hperm
  · have h1 := sort_ritzpair_sorted
      { st with ritz_val :=
          (st.ritz_val.take st.nev).map (fun θ => caddRe (cinv θ) sigma)
            ++ st.ritz_val.drop st.nev }
    exact h1

/-- Witness for C7 at a concrete well-formed state. -/
theorem shift_sort_transforms_then_sorts_witness :
    ((shift_sort_ritzpair 5 stSmall).ritz_val.take stSmall.nev).Perm
        ((stSmall.ritz_val.take stSmall.nev).map
          (fun θ => caddRe (cinv θ) 5))
    ∧ List.Pairwise (fun a b => cnorm b ≤ cnorm a)
        ((shift_sort_ritzpair 5 stSmall).ritz_val.take stSmall.nev) :=
  shift_sort_transforms_then_sorts 5 stSmall (by norm_num [stSmall])

/-! ## Matrix shape lemmas for the QR sweeps of `restart` -/

theorem upperTri_mul_hess {m : ℕ} {U H : Matrix (Fin m) (Fin m) ℚ}
    (hU : UpperTri U) (hH : Hessenberg H) : Hessenberg (U * H) := by
  intro i j hij
  rw [Matrix.mul_apply]
  apply Finset.sum_eq_zero
  intro k _
  by_cases hik : (i : ℕ) ≤ (k : ℕ)
  · rw [hH k j (by omega), mul_zero]
  · rw [hU i k (by omega), zero_mul]

theorem hess_mul_upperTri {m : ℕ} {H U : Matrix (Fin m) (Fin m) ℚ}
    (hH : Hessenberg H) (hU : UpperTri U) : Hessenberg (H * U) := by
  intro i j hij
  rw [Matrix.mul_apply]
  apply Finset.sum_eq_zero
  intro k _
  by_cases hk : (k : ℕ) + 1 < (i : ℕ)
  · rw [hH i k hk, zero_mul]
  · rw [hU k j (by omega), mul_zero]

theorem hess_add_smul_one {m : ℕ} {H : Matrix (Fin m) (Fin m) ℚ} (mu : ℚ)
    (hH : Hessenberg H) : Hessenberg (H + mu • 1) := by
  intro i j hij
  have hne : i ≠ j := by
    intro h
    rw [h] at hij
    omega
  rw [Matrix.add_apply, hH i j hij, Matrix.smul_apply, Matrix.one_apply_ne hne]
  simp

theorem shiftedHH_comm {m : ℕ} (H : Matrix (Fin m) (Fin m) ℚ) (re snorm : ℚ) :
    H * shiftedHH H re snorm = shiftedHH H re snorm * H := by
  unfold shiftedHH
  noncomm_ring

/-! ## Row structure of a Givens rotation -/

theorem givensMat_mul_apply_other {m : ℕ} (k : ℕ) (c s : ℚ)
    (M : Matrix (Fin m) (Fin m) ℚ) (i j : Fin m)
    (h1 : (i : ℕ) ≠ k) (h2 : (i : ℕ) ≠ k + 1) :
    (givensMat m k c s * M) i j = M i j := by
  rw [Matrix.mul_apply, Finset.sum_eq_single i]
  · simp [givensMat, h1, h2]
  · intro t _ ht
    have hne : ¬ i = t := fun h => ht h.symm
    simp only [givensMat, if_neg h1, if_neg h2, if_neg hne, zero_mul]
  · intro hni
    exact absurd (Finset.mem_univ i) hni

theorem givensMat_mul_apply_row_k {m : ℕ} (k : ℕ) (c s : ℚ)
    (M : Matrix (Fin m) (Fin m) ℚ) (hk : k < m) (hk1 : k + 1 < m) (j : Fin m) :
    (givensMat m k c s * M) ⟨k, hk⟩ j
      = c * M ⟨k, hk⟩ j + s * M ⟨k + 1, hk1⟩ j := by
  rw [Matrix.mul_apply]
  have hsplit : ∀ t : Fin m, givensMat m k c s ⟨k, hk⟩ t * M t j
      = (if t = (⟨k, hk⟩ : Fin m) then c * M t j else 0)
        + (if t = (⟨k + 1, hk1⟩ : Fin m) then s * M t j else 0) := by
    intro t
    by_cases h1 : (t : ℕ) = k
    · rw [if_pos (Fin.ext h1), if_neg (by rw [Fin.ext_iff]; simp; omega)]
      simp [givensMat, h1]
    · by_cases h2 : (t : ℕ) = k + 1
      · rw [if_neg (by rw [Fin.ext_iff]; simp; omega), if_pos (Fin.ext h2)]
        simp [givensMat, h1, h2]
      · rw [if_neg (by rw [Fin.ext_iff]; simpa using h1),
          if_neg (by rw [Fin.ext_iff]; simpa using h2)]
        simp [givensMat, h1, h2]
  rw [Finset.sum_congr rfl (fun t _ => hsplit t), Finset.sum_add_distrib,
    Finset.sum_ite_eq' Finset.univ (⟨k, hk⟩ : Fin m) (fun t => c * M t j),
    Finset.sum_ite_eq' Finset.univ (⟨k + 1, hk1⟩ : Fin m) (fun t => s * M t j)]
  simp

theorem givensMat_mul_apply_row_k1 {m : ℕ} (k : ℕ) (c s : ℚ)
    (M : Matrix (Fin m) (Fin m) ℚ) (hk : k < m) (hk1 : k + 1 < m) (j : Fin m) :
    (givensMat m k c s * M) ⟨k + 1, hk1⟩ j
      = -s * M ⟨k, hk⟩ j + c * M ⟨k + 1, hk1⟩ j := by
  rw [Matrix.mul_apply]
  have hsplit : ∀ t : Fin m, givensMat m k c s ⟨k + 1, hk1⟩ t * M t j
      = (if t = (⟨k, hk⟩ : Fin m) then -s * M t j else 0)
        + (if t = (⟨k + 1, hk1⟩ : Fin m) then c * M t j else 0) := by
    intro t
    by_cases h1 : (t : ℕ) = k
    · rw [if_pos (Fin.ext h1), if_neg (by rw [Fin.ext_iff]; simp; omega)]
      simp [givensMat, h1]
    · by_cases h2 : (t : ℕ) = k + 1
      · rw [if_neg (by rw [Fin.ext_iff]; simp; omega), if_pos (Fin.ext h2)]
        simp [givensMat, h1, h2]
      · rw [if_neg (by rw [Fin.ext_iff]; simpa using h1),
          if_neg (by rw [Fin.ext_iff]; simpa using h2)]
        simp [givensMat, h1, h2]
  rw [Finset.sum_congr rfl (fun t _ => hsplit t), Finset.sum_add_distrib,
    Finset.sum_ite_eq' Finset.univ (⟨k, hk⟩ : Fin m) (fun t => -s * M t j),
    Finset.sum_ite_eq' Finset.univ (⟨k + 1, hk1⟩ : Fin m) (fun t => c * M t j)]
  simp

theorem givens_range'_shape (m : ℕ) (c s : ℕ → ℚ) :
    ∀ (n k : ℕ), k + n ≤ m - 1 →
      Hessenberg (((List.range' k n).map
          (fun t => givensMat m t (c t) (s t))).prod)
      ∧ ∀ i j : Fin m, (i : ℕ) < k →
          (((List.range' k n).map (fun t => givensMat m t (c t) (s t))).prod) i j
            = if i = j then 1 else 0 := by
  intro n
  induction n with
  | zero =>
    intro k hk
    rw [List.range'_zero, List.map_nil, List.prod_nil]
    constructor
    · intro i j hij
      refine Matrix.one_apply_ne ?_
      intro h
      rw [h] at hij
      omega
    · intro i j hi
      exact Matrix.one_apply
  | succ n ih =>
    intro k hk
    have hkm : k < m := by omega
    have hk1m : k + 1 < m := by omega
    rw [List.range'_succ, List.map_cons, List.prod_cons]
    obtain ⟨ihH, ihId⟩ := ih (k + 1) (by omega)
    constructor
    · intro i j hij
      rcases lt_trichotomy ((i : ℕ)) k with hi | hi | hi
      · rw [givensMat_mul_apply_other _ _ _ _ i j (by omega) (by omega),
          ihId i j (by omega), if_neg]
        intro h
        rw [h] at hij
        omega
      · have hieq : i = ⟨k, hkm⟩ := Fin.ext hi
        rw [hieq, givensMat_mul_apply_row_k _ _ _ _ hkm hk1m j,
          ihId ⟨k, hkm⟩ j (by simp),
          ihH ⟨k + 1, hk1m⟩ j (by simp; omega), if_neg]
        · ring
        · intro h
          rw [← h] at hij
          simp at hij
          omega
      · by_cases hi1 : (i : ℕ) = k + 1
        · have hieq : i = ⟨k + 1, hk1m⟩ := Fin.ext hi1
          rw [hieq, givensMat_mul_apply_row_k1 _ _ _ _ hkm hk1m j,
            ihId ⟨k, hkm⟩ j (by simp),
            ihH ⟨k + 1, hk1m⟩ j (by simp; omega), if_neg]
          · ring
          · intro h
            rw [← h] at hij
            simp at hij
            omega
        · rw [givensMat_mul_apply_other _ _ _ _ i j (by omega) (by omega)]
          exact ihH i j hij
    · intro i j hi
      rw [givensMat_mul_apply_other _ _ _ _ i j (by omega) (by omega)]
      exact ihId i j (by omega)

theorem givensQ_hessenberg (m : ℕ) (c s : ℕ → ℚ) : Hessenberg (givensQ m c s) := by
  unfold givensQ
  rw [List.range_eq_range']
  exact (givens_range'_shape m c s (m - 1) 0 (by omega)).1

theorem upperTri_inv {m : ℕ} {R : Matrix (Fin m) (Fin m) ℚ} (hR : UpperTri R)
    (hdet : IsUnit R.det) : UpperTri R⁻¹ := by
  haveI := R.invertibleOfIsUnitDet hdet
  have hBT : R.BlockTriangular (fun i : Fin m => (i : ℕ)) := fun i j h => hR i j h
  have hBTi := Matrix.blockTriangular_inv_of_blockTriangular hBT
  exact fun i j h => hBTi h

theorem complex_sweep_hessenberg {m : ℕ} (H Q R : Matrix (Fin m) (Fin m) ℚ)
    (re snorm : ℚ) (hH : Hessenberg H) (hQ : Qᵀ * Q = 1) (hR : UpperTri R)
    (hQR : shiftedHH H re snorm = Q * R)
    (hdet : IsUnit (shiftedHH H re snorm).det) :
    Hessenberg (Qᵀ * H * Q) := by
  have hRdet : IsUnit R.det := by
    have hd : (shiftedHH H re snorm).det = Q.det * R.det := by
      rw [hQR, Matrix.det_mul]
    rw [hd] at hdet
    exact isUnit_of_mul_isUnit_right hdet
  have hReq : R = Qᵀ * shiftedHH H re snorm := by
    rw [hQR, ← Matrix.mul_assoc, hQ, Matrix.one_mul]
  have hRinv : R⁻¹ = (shiftedHH H re snorm)⁻¹ * Q := by
    apply Matrix.inv_eq_right_inv
    rw [hReq, Matrix.mul_assoc, ← Matrix.mul_assoc (shiftedHH H re snorm),
      Matrix.mul_nonsing_inv _ ‹IsUnit (shiftedHH H re snorm).det›,
      Matrix.one_mul, hQ]
  have hcomm : shiftedHH H re snorm * H * (shiftedHH H re snorm)⁻¹ = H := by
    rw [← shiftedHH_comm, Matrix.mul_assoc,
      Matrix.mul_nonsing_inv _ ‹IsUnit (shiftedHH H re snorm).det›,
      Matrix.mul_one]
  have hkey : R * H * R⁻¹ = Qᵀ * H * Q := by
    rw [hRinv, hReq]
    calc Qᵀ * shiftedHH H re snorm * H * ((shiftedHH H re snorm)⁻¹ * Q)
        = Qᵀ * (shiftedHH H re snorm * H * (shiftedHH H re snorm)⁻¹) * Q := by
          simp only [Matrix.mul_assoc]
      _ = Qᵀ * H * Q := by rw [hcomm]
  rw [← hkey]
  exact hess_mul_upperTri (upperTri_mul_hess hR hH) (upperTri_inv hR hRdet)

/-- Hessenberg preservation by the QR sweeps of `restart`, as far as the
factorization contract determines it: the single real-shift sweep
`R·Q + μ·I` is upper Hessenberg for every upper-triangular `R` and every
product of adjacent-plane Givens rotations, and the complex-pair sweep
`Qᵀ·H·Q` is upper Hessenberg for every factorization
`HH = H² − 2·Re(μ)·H + |μ|²·I = Q·R` with `Q` orthogonal and `R` upper
triangular, provided `HH` is invertible (equivalently `R` nonsingular).
When `HH` is singular — the case of exact conjugate Ritz shifts — the
contract alone no longer pins down `Q`, and the conclusion then depends on
the deterministic reflector choices inside Eigen's `HouseholderQR`, which
are not modelled here. -/
theorem restart_sweeps_preserve_hessenberg :
    (∀ (m : ℕ) (H Q R : Matrix (Fin m) (Fin m) ℚ) (re snorm : ℚ),
        Hessenberg H → Qᵀ * Q = 1 → UpperTri R →
        shiftedHH H re snorm = Q * R → IsUnit (shiftedHH H re snorm).det →
        Hessenberg (Qᵀ * H * Q))
    ∧ (∀ (m : ℕ) (R : Matrix (Fin m) (Fin m) ℚ) (c s : ℕ → ℚ) (mu : ℚ),
        UpperTri R → Hessenberg (matrixRQshift m R c s mu)) := by
  constructor
  · intro m H Q R re snorm hH hQ hR hQR hdet
    exact complex_sweep_hessenberg H Q R re snorm hH hQ hR hQR hdet
  · intro m R c s mu hR
    unfold matrixRQshift
    exact hess_add_smul_one mu (upperTri_mul_hess hR (givensQ_hessenberg m c s))

theorem shiftedHH_Hwit_eq :
    shiftedHH Hwit (3/2) 4 = !![2, 0, 1; 0, 3, 0; 0, 0, 3] := by
  unfold shiftedHH
  have h1 : Hwit - ((2 * (3/2) : ℚ)) • (1 : Matrix (Fin 3) (Fin 3) ℚ)
      = !![-2, 1, 1; 0, -2, 1; 0, 1, -1] := by
    unfold Hwit
    ext i j
    fin_cases i <;> fin_cases j <;>
      simp [Matrix.sub_apply, Matrix.smul_apply, Matrix.one_apply,
        Matrix.vecHead, Matrix.vecTail, Function.comp] <;> norm_num
  rw [h1]
  unfold Hwit
  rw [Matrix.mul_fin_three]
  ext i j
  fin_cases i <;> fin_cases j <;>
    simp [Matrix.add_apply, Matrix.smul_apply, Matrix.one_apply,
      Matrix.vecHead, Matrix.vecTail, Function.comp] <;> norm_num

/-- Concrete instances exercising both parts of
`restart_sweeps_preserve_hessenberg`: the complex-pair sweep at the
trivial factorization `HH = 1 · HH` of an invertible upper-triangular
`HH`, and the single-shift sweep at a concrete triangular factor and
rotation angles. -/
theorem restart_sweeps_preserve_hessenberg_witness :
    Hessenberg ((1 : Matrix (Fin 3) (Fin 3) ℚ)ᵀ * Hwit * 1)
    ∧ Hessenberg (matrixRQshift 3 Rwit (fun _ => 3/5) (fun _ => 4/5) 7) := by
  constructor
  · refine restart_sweeps_preserve_hessenberg.1 3 Hwit 1 (shiftedHH Hwit (3/2) 4)
      (3/2) 4 ?_ (by simp) ?_ (Matrix.one_mul _).symm ?_
    · intro i j hij
      revert hij
      fin_cases i <;> fin_cases j <;> decide
    · intro i j hij
      rw [shiftedHH_Hwit_eq]
      revert hij
      fin_cases i <;> fin_cases j <;> decide
    · rw [shiftedHH_Hwit_eq]
      have hd : (!![2, 0, 1; 0, 3, 0; 0, 0, 3] : Matrix (Fin 3) (Fin 3) ℚ).det
          = 18 := by
        rw [Matrix.det_fin_three]
        norm_num [Matrix.vecHead, Matrix.vecTail]
      rw [hd]
      exact isUnit_iff_ne_zero.mpr (by norm_num)
  · refine restart_sweeps_preserve_hessenberg.2 3 Rwit (fun _ => 3/5)
      (fun _ => 4/5) 7 ?_
    intro i j hij
    revert hij
    fin_cases i <;> fin_cases j <;> decide

